import Mathlib

/-!
Verification of the PDF statement extractor and categorizer (src/app.py).

Strings are modelled as lists of characters. Regular-expression operations
of the source are embedded as deterministic scanning functions: the number
token regex of line 47 needs no backtracking (each optional or repeated part
is followed only by parts that can match the empty string), so a greedy
left-to-right scan is an exact model. Monetary values are modelled as
rationals, which represent the decimal values of the source exactly.
-/

abbrev Str := List Char

/-- Python whitespace for str.strip and the \s class (ASCII range). -/
def pyWs (c : Char) : Bool :=
  c = ' ' || c = '\t' || c = '\n' || c = '\r' || c = '\x0b' || c = '\x0c'

/-- Python str.strip(): drop whitespace from both ends. -/
def stripChars (l : Str) : Str :=
  ((l.dropWhile pyWs).reverse.dropWhile pyWs).reverse

/-- Python str.replace(pat, "") with a pattern: every non-overlapping
occurrence, scanning left to right, is removed. The fuel argument makes
the recursion structural; it strictly dominates the length of the list,
so the fuel-out arm is never reached from `replaceAll`. -/
def replaceAllF (fuel : Nat) (l : Str) (pat : Str) : Str :=
  match fuel, l with
  | _, [] => []
  | 0, l => l
  | fuel + 1, c :: rest =>
    if pat ≠ [] ∧ pat.isPrefixOf (c :: rest) then
      replaceAllF fuel ((c :: rest).drop pat.length) pat
    else
      c :: replaceAllF fuel rest pat

def replaceAll (l : Str) (pat : Str) : Str := replaceAllF l.length l pat

theorem replaceAllF_congr (f1 : Nat) : ∀ (f2 : Nat) (l pat : Str),
    l.length ≤ f1 → l.length ≤ f2 → replaceAllF f1 l pat = replaceAllF f2 l pat := by
  induction f1 with
  | zero =>
    intro f2 l pat h1 _
    have : l = [] := List.length_eq_zero.mp (Nat.le_zero.mp h1)
    subst this
    cases f2 <;> simp [replaceAllF]
  | succ f ih =>
    intro f2 l pat h1 h2
    rcases l with _ | ⟨c, rest⟩
    · cases f2 <;> simp [replaceAllF]
    · rcases f2 with _ | g
      · simp at h2
      · simp only [replaceAllF]
        have hlen : rest.length ≤ f ∧ rest.length ≤ g := by
          simp only [List.length_cons] at h1 h2
          omega
        by_cases hp : pat ≠ [] ∧ pat.isPrefixOf (c :: rest)
        · rw [if_pos hp, if_pos hp]
          have hpl : 1 ≤ pat.length := by
            cases hpat : pat with
            | nil => exact absurd hpat hp.1
            | cons a as => simp
          apply ih
          · simp only [List.length_drop, List.length_cons]
            simp only [List.length_cons] at h1
            omega
          · simp only [List.length_drop, List.length_cons]
            simp only [List.length_cons] at h2
            omega
        · rw [if_neg hp, if_neg hp]
          exact congrArg (c :: ·) (ih g rest pat hlen.1 hlen.2)

/-- The defining equation of replaceAll on a nonempty list, free of fuel. -/
theorem replaceAll_cons (c : Char) (rest pat : Str) :
    replaceAll (c :: rest) pat =
      if pat ≠ [] ∧ pat.isPrefixOf (c :: rest) then
        replaceAll ((c :: rest).drop pat.length) pat
      else
        c :: replaceAll rest pat := by
  show replaceAllF (rest.length + 1) (c :: rest) pat = _
  rw [replaceAllF]
  by_cases hp : pat ≠ [] ∧ pat.isPrefixOf (c :: rest)
  · rw [if_pos hp, if_pos hp]
    have hpl : 1 ≤ pat.length := by
      cases hpat : pat with
      | nil => exact absurd hpat hp.1
      | cons a as => simp
    apply replaceAllF_congr
    · simp only [List.length_drop, List.length_cons]
      omega
    · exact Nat.le_refl _
  · rw [if_neg hp, if_neg hp]
    exact congrArg (c :: ·) (replaceAllF_congr _ _ _ _ (Nat.le_refl _) (Nat.le_refl _))

/-- Removal of only the first occurrence of a substring (what the spec
sentence for C5 describes; Python str.replace does not behave like this). -/
def replaceFirst (l : Str) (pat : Str) : Str :=
  match l with
  | [] => []
  | c :: rest =>
    if pat ≠ [] ∧ pat.isPrefixOf (c :: rest) then
      (c :: rest).drop pat.length
    else
      c :: replaceFirst rest pat

/-- The date shape of the regex at line 40 of src/app.py:
two digits, a slash, two digits, a slash, four digits. -/
def isDateShape (l : Str) : Bool :=
  match l with
  | [d1, d2, s1, m1, m2, s2, y1, y2, y3, y4] =>
    d1.isDigit && d2.isDigit && s1 = '/' && m1.isDigit && m2.isDigit &&
      s2 = '/' && y1.isDigit && y2.isDigit && y3.isDigit && y4.isDigit
  | _ => false

/-- re.match against the date pattern: a match anchored at position 0.
Returns the matched ten-character date when the line starts with one. -/
def dateMatch (line : Str) : Option Str :=
  if isDateShape (line.take 10) then some (line.take 10) else none

/-- Whether the reference pattern P followed by nine digits matches at the
head of the list. -/
def isRefAt (l : Str) : Bool :=
  match l with
  | 'P' :: rest => (rest.take 9).length = 9 && (rest.take 9).all Char.isDigit
  | _ => false

/-- re.search for the reference pattern (line 44 of src/app.py): the
leftmost occurrence of P followed by nine digits. -/
def refSearch (l : Str) : Option Str :=
  match l with
  | [] => none
  | c :: rest =>
    if isRefAt (c :: rest) then some ((c :: rest).take 10) else refSearch rest

/-- Greedy digits of the integer part: at most n leading digits. -/
def takeDigits (n : Nat) (l : Str) : Str × Str :=
  match n, l with
  | 0, l => ([], l)
  | _ + 1, [] => ([], [])
  | n + 1, c :: rest =>
    if c.isDigit then
      let p := takeDigits n rest
      (c :: p.1, p.2)
    else ([], c :: rest)

/-- Greedy thousands groups: repetitions of a comma followed by exactly
three digits. -/
def takeGroups (l : Str) : Str × Str :=
  match l with
  | ',' :: c1 :: c2 :: c3 :: rest =>
    if c1.isDigit && c2.isDigit && c3.isDigit then
      let p := takeGroups rest
      (',' :: c1 :: c2 :: c3 :: p.1, p.2)
    else ([], ',' :: c1 :: c2 :: c3 :: rest)
  | l => ([], l)

/-- Greedy optional decimal part: a dot followed by one or two digits. -/
def takeDec (l : Str) : Str × Str :=
  match l with
  | '.' :: c :: rest =>
    if c.isDigit then
      match rest with
      | c2 :: rest2 =>
        if c2.isDigit then (['.', c, c2], rest2) else (['.', c], c2 :: rest2)
      | [] => (['.', c], [])
    else ([], '.' :: c :: rest)
  | l => ([], l)

theorem takeDigits_append (n : Nat) (l : Str) :
    (takeDigits n l).1 ++ (takeDigits n l).2 = l := by
  induction l generalizing n with
  | nil => cases n <;> simp [takeDigits]
  | cons c rest ih =>
    cases n with
    | zero => simp [takeDigits]
    | succ m =>
      by_cases hc : c.isDigit <;> simp [takeDigits, hc, ih]

theorem takeGroups_append (l : Str) : (takeGroups l).1 ++ (takeGroups l).2 = l := by
  induction l using takeGroups.induct with
  | case1 c1 c2 c3 rest h ih =>
    simp only [takeGroups, h, if_pos]
    simpa using ih
  | case2 c1 c2 c3 rest h =>
    simp [takeGroups, h]
  | case3 l h =>
    rw [takeGroups.eq_def]
    split
    · rename_i c1 c2 c3 rest
      exact absurd rfl (fun hh => h c1 c2 c3 rest hh)
    · simp

theorem takeDec_append (l : Str) : (takeDec l).1 ++ (takeDec l).2 = l := by
  rw [takeDec.eq_def]
  split
  · rename_i c rest
    by_cases hc : c.isDigit
    · simp only [hc, if_pos]
      rcases rest with _ | ⟨c2, rest2⟩
      · simp
      · by_cases h2 : c2.isDigit <;> simp [h2]
    · simp [hc]
  · simp

/-- One attempted match of the unsigned number pattern at the head of the
list: digits, optional comma groups, optional decimal part. -/
def matchNumCore (l : Str) : Option (Str × Str) :=
  match l with
  | c :: _ =>
    if c.isDigit then
      let p1 := takeDigits 3 l
      let p2 := takeGroups p1.2
      let p3 := takeDec p2.2
      some (p1.1 ++ p2.1 ++ p3.1, p3.2)
    else none
  | [] => none

/-- One attempted match of the full number pattern (an optional minus sign,
then the unsigned pattern) at the head of the list. -/
def matchNumAt (l : Str) : Option (Str × Str) :=
  match l with
  | '-' :: rest =>
    match matchNumCore rest with
    | some p => some ('-' :: p.1, p.2)
    | none => none
  | _ => matchNumCore l

theorem matchNumCore_append (l : Str) (p : Str × Str) (h : matchNumCore l = some p) :
    p.1 ++ p.2 = l ∧ p.1 ≠ [] := by
  rcases l with _ | ⟨c, rest⟩
  · simp [matchNumCore] at h
  · by_cases hc : c.isDigit
    · simp only [matchNumCore, hc, if_pos, Option.some.injEq] at h
      subst h
      constructor
      · simp only
        rw [List.append_assoc, List.append_assoc, takeDec_append, takeGroups_append,
          takeDigits_append]
      · have hd : (takeDigits 3 (c :: rest)).1 = c :: (takeDigits 2 rest).1 := by
          simp [takeDigits, hc]
        simp [hd]
    · simp [matchNumCore, hc] at h

theorem matchNumAt_append (l : Str) (p : Str × Str) (h : matchNumAt l = some p) :
    p.1 ++ p.2 = l ∧ p.1 ≠ [] := by
  rw [matchNumAt.eq_def] at h
  split at h
  · rename_i rest
    rcases hc : matchNumCore rest with _ | q
    · rw [hc] at h; exact absurd h (by simp)
    · rw [hc] at h
      simp only [Option.some.injEq] at h
      subst h
      have := matchNumCore_append rest q hc
      simp [this.1]
  · exact matchNumCore_append l p h

theorem matchNumAt_shorter (l : Str) (p : Str × Str) (h : matchNumAt l = some p) :
    p.2.length < l.length := by
  have ⟨ha, hne⟩ := matchNumAt_append l p h
  have : p.1.length + p.2.length = l.length := by
    rw [← ha]; simp
  have : 1 ≤ p.1.length := by
    cases hp : p.1 with
    | nil => exact absurd hp hne
    | cons a as => simp [hp]
  omega

/-- re.findall of the number pattern (line 47 of src/app.py): scan left to
right, move one character when no match starts here, and continue after the
end of each match. The fuel argument makes the recursion structural; it
strictly dominates the length of the list, so the fuel-out arm is never
reached from `findNumbers`. -/
def findNumbersF (fuel : Nat) (l : Str) : List Str :=
  match fuel, l with
  | _, [] => []
  | 0, _ => []
  | fuel + 1, c :: rest =>
    match matchNumAt (c :: rest) with
    | some p => p.1 :: findNumbersF fuel p.2
    | none => findNumbersF fuel rest

def findNumbers (l : Str) : List Str := findNumbersF l.length l

theorem findNumbersF_congr (f1 : Nat) : ∀ (f2 : Nat) (l : Str),
    l.length ≤ f1 → l.length ≤ f2 → findNumbersF f1 l = findNumbersF f2 l := by
  induction f1 with
  | zero =>
    intro f2 l h1 _
    have : l = [] := List.length_eq_zero.mp (Nat.le_zero.mp h1)
    subst this
    cases f2 <;> simp [findNumbersF]
  | succ f ih =>
    intro f2 l h1 h2
    rcases l with _ | ⟨c, rest⟩
    · cases f2 <;> simp [findNumbersF]
    · rcases f2 with _ | g
      · simp at h2
      · simp only [findNumbersF]
        simp only [List.length_cons] at h1 h2
        rcases hm : matchNumAt (c :: rest) with _ | p
        · exact ih g rest (by omega) (by omega)
        · have hp := matchNumAt_shorter _ _ hm
          simp only [List.length_cons] at hp
          exact congrArg (p.1 :: ·) (ih g p.2 (by omega) (by omega))

/-- The defining equation of findNumbers on a nonempty list, free of fuel. -/
theorem findNumbers_cons (c : Char) (rest : Str) :
    findNumbers (c :: rest) =
      match matchNumAt (c :: rest) with
      | some p => p.1 :: findNumbers p.2
      | none => findNumbers rest := by
  show findNumbersF (rest.length + 1) (c :: rest) = _
  rw [findNumbersF]
  rcases hm : matchNumAt (c :: rest) with _ | p
  · exact findNumbersF_congr _ _ _ (Nat.le_refl _) (Nat.le_refl _)
  · have hp := matchNumAt_shorter _ _ hm
    simp only [List.length_cons] at hp
    exact congrArg (p.1 :: ·)
      (findNumbersF_congr _ _ _ (by omega) (Nat.le_refl _))

/-- One row of the transactions list built at line 57 of src/app.py, with
the fields still in their raw string form. -/
structure RawRecord where
  date : Str
  ref : Str
  desc : Str
  amount : Str
  balance : Str
deriving DecidableEq, Repr

/-- Line 43 of src/app.py: the rest of the line after the matched date,
stripped. -/
def remainderOf (line : Str) : Str := stripChars (line.drop 10)

/-- Lines 44 and 45 of src/app.py: the reference number if present, else the
empty string. -/
def refNumberOf (remainder : Str) : Str := (refSearch remainder).getD []

/-- Line 46 of src/app.py: the remainder with the reference number removed
and stripped, when a reference number was found. -/
def remainderCleanOf (remainder : Str) : Str :=
  if refNumberOf remainder ≠ [] then stripChars (replaceAll remainder (refNumberOf remainder))
  else remainder

/-- Lines 40 to 57 of src/app.py: processing of a single line of page text.
Returns the appended row, or none when the line is skipped. -/
def processLine (line : Str) : Option RawRecord :=
  match dateMatch line with
  | none => none
  | some date =>
    let remainder := stripChars (line.drop date.length)
    let refNumber := refNumberOf remainder
    let remainderClean := remainderCleanOf remainder
    let numbers := findNumbers remainderClean
    match numbers.reverse with
    | balance :: amount :: _ =>
      some ⟨date, refNumber,
            stripChars (replaceAll (replaceAll remainderClean amount) balance),
            amount, balance⟩
    | [amount] =>
      some ⟨date, refNumber, stripChars (replaceAll remainderClean amount), amount, []⟩
    | [] => none

/-- The extractor of src/app.py lines 32 to 58, over the lines of a
document: every line is processed independently and the produced rows are
collected in order. -/
def extract_wio_transactions (lines : List Str) : List RawRecord :=
  match lines with
  | [] => []
  | line :: rest =>
    match processLine line with
    | some r => r :: extract_wio_transactions rest
    | none => extract_wio_transactions rest

/-- Value of a string of decimal digits. -/
def digitsVal (l : Str) : Nat :=
  l.foldl (fun a c => a * 10 + (c.toNat - '0'.toNat)) 0

/-- Python float() on an unsigned body: digits, or digits dot digits, with
either side of the dot optional but not both. -/
def parseUnsigned (l : Str) : Option ℚ :=
  let ip := l.takeWhile Char.isDigit
  let rest := l.dropWhile Char.isDigit
  match rest with
  | [] => if ip = [] then none else some (digitsVal ip)
  | '.' :: frac =>
    if frac.all Char.isDigit ∧ (ip ≠ [] ∨ frac ≠ []) then
      some ((digitsVal ip : ℚ) + (digitsVal frac : ℚ) / (10 : ℚ) ^ frac.length)
    else none
  | _ => none

/-- Python float() on a stripped string with an optional sign. Returns none
where float() raises, and the exact rational value otherwise. Exponent and
special forms never occur in this pipeline and are not modelled. -/
def parseFloat (l : Str) : Option ℚ :=
  match stripChars l with
  | '-' :: rest => (parseUnsigned rest).map (fun q => -q)
  | '+' :: rest => parseUnsigned rest
  | t => parseUnsigned t

/-- The comma removal of lines 85 and 87 of src/app.py (replace with the
regex pattern comma, so every comma goes). -/
def stripCommas (l : Str) : Str := l.filter (fun c => c ≠ ',')

/-- pd.to_numeric with coercion of errors (line 86 of src/app.py), after
the comma removal: none models a missing value (NaN). -/
def toNumericCoerce (l : Str) : Option ℚ := parseFloat (stripCommas l)

/-- Series.astype(float) after the comma removal (line 85 of src/app.py):
the whole column converts, or the conversion raises (none). -/
def astypeFloatCol (col : List Str) : Option (List ℚ) :=
  match col with
  | [] => some []
  | v :: rest =>
    match parseFloat (stripCommas v), astypeFloatCol rest with
    | some q, some qs => some (q :: qs)
    | _, _ => none

def digit2 (a b : Char) : Nat := (a.toNat - '0'.toNat) * 10 + (b.toNat - '0'.toNat)

def isLeap (y : Nat) : Bool := (y % 4 = 0 && !(y % 100 = 0)) || y % 400 = 0

def daysInMonth (y m : Nat) : Nat :=
  if m = 2 then (if isLeap y then 29 else 28)
  else if m = 4 ∨ m = 6 ∨ m = 9 ∨ m = 11 then 30
  else 31

/-- pd.to_datetime with the fixed format DD/MM/YYYY and coercion of errors
(line 84 of src/app.py): some (year, month, day) for a string that is
exactly that shape and a valid calendar date, none (NaT) otherwise. -/
def parseDate (l : Str) : Option (Nat × Nat × Nat) :=
  match l with
  | [d1, d2, '/', m1, m2, '/', y1, y2, y3, y4] =>
    if d1.isDigit && d2.isDigit && m1.isDigit && m2.isDigit &&
        y1.isDigit && y2.isDigit && y3.isDigit && y4.isDigit then
      let d := digit2 d1 d2
      let m := digit2 m1 m2
      let y := (digit2 y1 y2) * 100 + digit2 y3 y4
      if 1 ≤ y ∧ 1 ≤ m ∧ m ≤ 12 ∧ 1 ≤ d ∧ d ≤ daysInMonth y m then
        some (y, m, d)
      else none
    else none
  | _ => none

/-- dropna on the Date column (line 89 of src/app.py): keep the rows whose
date parsed. -/
def dropnaByDate (rows : List RawRecord) : List RawRecord :=
  rows.filter (fun r => (parseDate r.date).isSome)

/-- A sort key that orders parsed dates chronologically. -/
def dateKey (r : RawRecord) : Nat :=
  match parseDate r.date with
  | some (y, m, d) => y * 10000 + m * 100 + d
  | none => 0

/-- sort_values on the Date column (line 89 of src/app.py). The sort kind
of the source (numpy quicksort) is modelled by insertion sort; every
theorem below uses only that the output is a permutation arranged by date,
which holds for any sort kind. -/
def sortByDate (rows : List RawRecord) : List RawRecord :=
  List.insertionSort (fun a b => dateKey a ≤ dateKey b) rows

/-- The rows of the final table, in final order: extraction, then the date
coercion with dropna, then the sort (line 89 of src/app.py). -/
def finalRecords (lines : List Str) : List RawRecord :=
  sortByDate (dropnaByDate (extract_wio_transactions lines))

/-- Series.cumsum threading the running total, as used at line 91 of
src/app.py. -/
def cumsumFrom (acc : ℚ) : List ℚ → List ℚ
  | [] => []
  | x :: xs => (acc + x) :: cumsumFrom (acc + x) xs

def cumsum (l : List ℚ) : List ℚ := cumsumFrom 0 l

/-- Line 91 of src/app.py: the Calculated Balance column is the opening
balance plus the cumulative sum of the Amount column. -/
def calculatedBalance (opening : ℚ) (amounts : List ℚ) : List ℚ :=
  (cumsum amounts).map (fun v => opening + v)

/-- Dash normalization of clean_text (line 235 of src/app.py): en and em
dashes become a hyphen. -/
def normDash (c : Char) : Char := if c = '–' ∨ c = '—' then '-' else c

/-- The regex substitution of one or more whitespace characters by a single
space (line 235 of src/app.py): a maximal run of whitespace becomes one
space. -/
def collapseWs (l : Str) : Str :=
  match l with
  | [] => []
  | [c] => if pyWs c then [' '] else [c]
  | c1 :: c2 :: rest =>
    if pyWs c1 then
      if pyWs c2 then collapseWs (c2 :: rest)
      else ' ' :: collapseWs (c2 :: rest)
    else c1 :: collapseWs (c2 :: rest)

/-- clean_text of src/app.py (line 233): lowercase, normalize dashes,
collapse whitespace runs to one space, strip the ends. ASCII case folding
models str.lower on this ASCII pipeline. -/
def clean_text (l : Str) : Str :=
  stripChars (collapseWs ((l.map Char.toLower).map normDash))

/-- The Python substring test pat in l. -/
def isSubstr (pat l : Str) : Bool :=
  l.tails.any (fun t => pat.isPrefixOf t)

/-- The row loop of categorize_description (lines 245 to 248 of
src/app.py): first row whose nonempty keyword occurs in the cleaned
description wins; the master rows are (keyword, category) pairs. -/
def catRows (cleaned : Str) : List (Str × Str) → Str
  | [] => "Uncategorized".toList
  | (kw, cat) :: rest =>
    if kw ≠ [] ∧ isSubstr kw cleaned then cat else catRows cleaned rest

/-- categorize_description of src/app.py (lines 242 to 248). -/
def categorize_description (description : Str) (master : List (Str × Str)) : Str :=
  catRows (clean_text description) master

/-- The specification reading of the categorizer, stated independently with
List.find?: the category of the first rule, in table order, whose keyword
is nonempty and a substring of the cleaned description, and the sentinel
when no rule matches. -/
def categorizeSpec (description : Str) (master : List (Str × Str)) : Str :=
  match master.find? (fun row => !row.1.isEmpty && isSubstr row.1 (clean_text description)) with
  | some row => row.2
  | none => "Uncategorized".toList

/-- A statement table for the categorization tab: named columns, each a
list of cell values in row order. -/
abbrev DataFrame := List (Str × List Str)

def getCol (df : DataFrame) (c : Str) : Option (List Str) :=
  (df.find? (fun p => decide (p.1 = c))).map (fun p => p.2)

/-- Column assignment: overwrite an existing column in place, else append
a new column at the end, as pandas does. -/
def setCol (df : DataFrame) (c : Str) (v : List Str) : DataFrame :=
  if df.any (fun p => decide (p.1 = c)) then
    df.map (fun p => if p.1 = c then (c, v) else p)
  else df ++ [(c, v)]

/-- categorize_statement of src/app.py (lines 250 to 253): the
Categorization column is assigned from the description column mapped
through categorize_description; nothing else is touched. -/
def categorize_statement (df : DataFrame) (master : List (Str × Str)) (descCol : Str) :
    DataFrame :=
  setCol df "Categorization".toList
    (((getCol df descCol).getD []).map (fun d => categorize_description d master))

theorem cumsumFrom_getD (l : List ℚ) : ∀ (acc : ℚ) (i : Nat), i < l.length →
    (cumsumFrom acc l).getD i 0 = acc + (l.take (i + 1)).sum := by
  induction l with
  | nil => intro acc i h; simp at h
  | cons x xs ih =>
    intro acc i h
    cases i with
    | zero => simp [cumsumFrom]
    | succ j =>
      simp only [cumsumFrom, List.getD_cons_succ, List.take_succ_cons, List.sum_cons]
      rw [ih (acc + x) j (by simpa using h)]
      ring

theorem map_add_cumsumFrom (c : ℚ) (l : List ℚ) : ∀ acc : ℚ,
    (cumsumFrom acc l).map (fun v => c + v) = cumsumFrom (c + acc) l := by
  induction l with
  | nil => intro acc; simp [cumsumFrom]
  | cons x xs ih =>
    intro acc
    simp only [cumsumFrom, List.map_cons, ih (acc + x)]
    rw [← add_assoc]

/-- C2: the i-th Calculated Balance equals the opening balance plus the
inclusive prefix sum of the amounts of records 0 through i, for any
sequence of amounts in the sorted order and any opening balance. -/
theorem calculated_balance_prefix_sum (opening : ℚ) (amounts : List ℚ) (i : Nat)
    (h : i < amounts.length) :
    (calculatedBalance opening amounts).getD i 0 = opening + (amounts.take (i + 1)).sum := by
  unfold calculatedBalance cumsum
  rw [map_add_cumsumFrom, add_zero]
  exact cumsumFrom_getD amounts opening i h

/-- Witness for C2 at the sample of the spec: opening balance 1000 and
amounts -200 and 50 give calculated balance 850 at index 1. -/
theorem calculated_balance_prefix_sum_witness :
    (calculatedBalance 1000 [(-200 : ℚ), 50]).getD 1 0 =
      1000 + (([(-200 : ℚ), 50]).take 2).sum :=
  calculated_balance_prefix_sum 1000 [(-200 : ℚ), 50] 1 (by decide)

/-- C3: the categorizer of src/app.py returns the category of the first
rule, in table order, whose nonempty keyword is a substring of the cleaned
description, and the sentinel Uncategorized when no rule matches; rules
with an empty keyword never match. Stated as equality between the row loop
of the source and the independent find?-based reading. -/
theorem categorize_first_match (description : Str) (master : List (Str × Str)) :
    categorize_description description master = categorizeSpec description master := by
  unfold categorize_description categorizeSpec
  induction master with
  | nil => simp [catRows]
  | cons row rest ih =>
    obtain ⟨kw, cat⟩ := row
    by_cases hkw : kw = []
    · subst hkw
      simp only [catRows, ne_eq, not_true_eq_false, false_and, if_false]
      rw [List.find?_cons_of_neg _ (by simp), ih]
    · by_cases hsub : isSubstr kw (clean_text description) = true
      · simp only [catRows, ne_eq, hkw, not_false_eq_true, true_and, hsub, if_true]
        rw [List.find?_cons_of_pos _ (by simp [hkw, hsub])]
      · have hcond : ¬(kw ≠ [] ∧ isSubstr kw (clean_text description)) := by
          intro hc
          exact hsub hc.2
        simp only [catRows]
        rw [if_neg hcond, List.find?_cons_of_neg _ (by simp [hsub]), ih]

theorem isDateShape_length (l : Str) (h : isDateShape l = true) : l.length = 10 := by
  rw [isDateShape.eq_def] at h
  split at h
  · rename_i d1 d2 s1 m1 m2 s2 y1 y2 y3 y4
    rfl
  · exact absurd h (by simp)

/-- C7: a line is recognized as starting a transaction (re.match at line 40
of src/app.py succeeds) exactly when a substring matching the date pattern
occurs at position 0 of the line; and on a line with no anchored date match
the extractor emits nothing. -/
theorem date_anchored_recognition (line : Str) :
    ((dateMatch line).isSome = true ↔ ∃ s t, line = s ++ t ∧ isDateShape s = true) ∧
      (dateMatch line = none → processLine line = none) := by
  constructor
  · constructor
    · intro h
      unfold dateMatch at h
      by_cases hs : isDateShape (line.take 10) = true
      · exact ⟨line.take 10, line.drop 10, by simp, hs⟩
      · rw [if_neg (by simp [hs])] at h
        simp at h
    · rintro ⟨s, t, rfl, hs⟩
      have hl := isDateShape_length s hs
      unfold dateMatch
      rw [← hl, List.take_left]
      simp [hs]
  · intro h
    unfold processLine
    rw [h]

/-- C8: a line with an anchored date match but no parseable numeric token
in its cleaned remainder produces no record, and extraction continues on
the remaining lines unchanged. -/
theorem no_numeric_line_skipped (line : Str) (rest : List Str)
    (h1 : isDateShape (line.take 10) = true)
    (h2 : findNumbers (remainderCleanOf (remainderOf line)) = []) :
    processLine line = none ∧
      extract_wio_transactions (line :: rest) = extract_wio_transactions rest := by
  have hd : dateMatch line = some (line.take 10) := by
    unfold dateMatch
    rw [if_pos h1]
  have hlen : (line.take 10).length = 10 := isDateShape_length _ h1
  have hpl : processLine line = none := by
    unfold processLine
    rw [hd]
    simp only [hlen]
    unfold remainderOf at h2
    rw [h2]
    rfl
  refine ⟨hpl, ?_⟩
  simp only [extract_wio_transactions, hpl]

/-- Witness for C8: a dated line with no numeric token is dropped and the
following line is still extracted. -/
theorem no_numeric_line_skipped_witness :
    processLine "01/02/2024 hello world".toList = none ∧
      extract_wio_transactions
          ["01/02/2024 hello world".toList, "02/02/2024 pay 5.00 6.00".toList] =
        extract_wio_transactions ["02/02/2024 pay 5.00 6.00".toList] :=
  no_numeric_line_skipped _ _ (by decide) (by decide)

theorem getCol_map_overwrite (df : DataFrame) (c col : Str) (v : List Str) (h : col ≠ c) :
    getCol (df.map (fun p => if p.1 = c then (c, v) else p)) col = getCol df col := by
  induction df with
  | nil => rfl
  | cons p rest ih =>
    by_cases hp : p.1 = c
    · simp only [List.map_cons, hp, if_pos]
      unfold getCol
      rw [List.find?_cons_of_neg _
          (by simp only [decide_eq_true_eq]; exact fun hh => h hh.symm),
        List.find?_cons_of_neg _
          (by simp only [decide_eq_true_eq, hp]; exact fun hh => h hh.symm)]
      exact ih
    · simp only [List.map_cons, hp, ite_false]
      by_cases hc : p.1 = col
      · unfold getCol
        rw [List.find?_cons_of_pos _ (by simp [hc]), List.find?_cons_of_pos _ (by simp [hc])]
      · unfold getCol
        rw [List.find?_cons_of_neg _ (by simp [hc]), List.find?_cons_of_neg _ (by simp [hc])]
        exact ih

theorem getCol_append_single (df : DataFrame) (c col : Str) (v : List Str) (h : col ≠ c) :
    getCol (df ++ [(c, v)]) col = getCol df col := by
  induction df with
  | nil =>
    unfold getCol
    rw [List.nil_append, List.find?_cons_of_neg _
      (by simp only [decide_eq_true_eq]; exact fun hh => h hh.symm)]
  | cons p rest ih =>
    by_cases hc : p.1 = col
    · unfold getCol
      rw [List.cons_append, List.find?_cons_of_pos _ (by simp [hc]),
        List.find?_cons_of_pos _ (by simp [hc])]
    · unfold getCol
      rw [List.cons_append, List.find?_cons_of_neg _ (by simp [hc]),
        List.find?_cons_of_neg _ (by simp [hc])]
      exact ih

/-- C9: categorizing a statement table only writes the Categorization
column: every other column keeps exactly its values, in the same row order
and with the same row count. -/
theorem categorize_statement_frame (df : DataFrame) (master : List (Str × Str))
    (descCol col : Str) (h : col ≠ "Categorization".toList) :
    getCol (categorize_statement df master descCol) col = getCol df col := by
  unfold categorize_statement setCol
  by_cases ha : df.any (fun p => decide (p.1 = "Categorization".toList)) = true
  · rw [if_pos ha]
    exact getCol_map_overwrite df _ col _ h
  · rw [if_neg ha]
    exact getCol_append_single df _ col _ h

/-- Witness for C9: on a concrete two-column table, the Amount column is
untouched by categorization. -/
theorem categorize_statement_frame_witness :
    getCol
        (categorize_statement
          [("Description".toList, ["AMAZON PRIME".toList]),
           ("Amount".toList, ["5.00".toList])]
          [("amazon".toList, "Shopping".toList)] "Description".toList)
        "Amount".toList =
      getCol
        [("Description".toList, ["AMAZON PRIME".toList]),
         ("Amount".toList, ["5.00".toList])]
        "Amount".toList :=
  categorize_statement_frame _ _ _ _ (by decide)

/-- Characterization of processLine on a line with an anchored date match,
exposing the tie-break on the reversed token list exactly as in lines 48
to 56 of src/app.py. -/
theorem processLine_eq (line : Str) (h : isDateShape (line.take 10) = true) :
    processLine line =
      match (findNumbers (remainderCleanOf (remainderOf line))).reverse with
      | bal :: amt :: _ =>
        some ⟨line.take 10, refNumberOf (remainderOf line),
          stripChars (replaceAll (replaceAll (remainderCleanOf (remainderOf line)) amt) bal),
          amt, bal⟩
      | [amt] =>
        some ⟨line.take 10, refNumberOf (remainderOf line),
          stripChars (replaceAll (remainderCleanOf (remainderOf line)) amt), amt, []⟩
      | [] => none := by
  unfold processLine
  rw [show dateMatch line = some (line.take 10) by unfold dateMatch; rw [if_pos h]]
  dsimp only
  rw [isDateShape_length _ h]
  rfl

/-- C1 counterexample: on this line the cleaned remainder has exactly one
numeric token, and the extractor assigns it to the amount with an empty
running balance, not to the running balance with an absent amount as the
claim states. -/
theorem single_token_is_amount :
    findNumbers (remainderCleanOf (remainderOf "01/02/2024 Shop 5,000.00".toList)) =
        ["5,000.00".toList] ∧
      (processLine "01/02/2024 Shop 5,000.00".toList).map (fun r => (r.amount, r.balance)) =
        some ("5,000.00".toList, []) :=
  ⟨by decide, by decide⟩

/-- C1 amended: numeric tokens are consumed from the end of the token
list: with at least two tokens the last is the running balance and the
second-to-last the amount, and the description is the remainder with only
those two matched substrings removed (earlier tokens are not consumed as
fields); with exactly one token, that token is the amount and the running
balance is absent. -/
theorem tokens_consumed_from_end (line : Str) (r : RawRecord)
    (h : processLine line = some r) :
    (2 ≤ (findNumbers (remainderCleanOf (remainderOf line))).length →
      r.balance = (findNumbers (remainderCleanOf (remainderOf line))).getLastD [] ∧
      r.amount =
        ((findNumbers (remainderCleanOf (remainderOf line))).dropLast).getLastD [] ∧
      r.desc =
        stripChars
          (replaceAll (replaceAll (remainderCleanOf (remainderOf line)) r.amount)
            r.balance)) ∧
    ((findNumbers (remainderCleanOf (remainderOf line))).length = 1 →
      r.amount = (findNumbers (remainderCleanOf (remainderOf line))).getLastD [] ∧
      r.balance = [] ∧
      r.desc = stripChars (replaceAll (remainderCleanOf (remainderOf line)) r.amount)) := by
  by_cases hs : isDateShape (line.take 10) = true
  · rw [processLine_eq line hs] at h
    rcases hrev : (findNumbers (remainderCleanOf (remainderOf line))).reverse with _ | ⟨bal, tl⟩
    · rw [hrev] at h
      exact Option.noConfusion h
    · rcases tl with _ | ⟨amt, t⟩
      · rw [hrev] at h
        injection h with h
        subst h
        have h2 := congrArg List.reverse hrev
        rw [List.reverse_reverse] at h2
        have hnums : findNumbers (remainderCleanOf (remainderOf line)) = [bal] := by
          rw [h2]
          rfl
        constructor
        · intro hge
          rw [hnums] at hge
          exact absurd hge (by simp)
        · intro _
          exact ⟨by rw [hnums]; rfl, rfl, rfl⟩
      · rw [hrev] at h
        injection h with h
        subst h
        have h2 := congrArg List.reverse hrev
        rw [List.reverse_reverse] at h2
        have hnums : findNumbers (remainderCleanOf (remainderOf line)) =
            (t.reverse ++ [amt]) ++ [bal] := by
          rw [h2, List.reverse_cons, List.reverse_cons]
        constructor
        · intro _
          refine ⟨?_, ?_, rfl⟩
          · rw [hnums, List.getLastD_concat]
          · rw [hnums, List.dropLast_concat, List.getLastD_concat]
        · intro h1
          rw [hnums] at h1
          simp at h1
  · unfold processLine dateMatch at h
    rw [if_neg (by simp [hs])] at h
    exact Option.noConfusion h

def c1Line : Str := "01/02/2024 P123456789 Grocery Store 150.00 5,000.00".toList

def c1Rec : RawRecord :=
  ⟨"01/02/2024".toList, "P123456789".toList, "Grocery Store".toList,
    "150.00".toList, "5,000.00".toList⟩

/-- Witness for the amended C1 at the two-token sample line of the spec. -/
theorem tokens_consumed_from_end_witness :
    c1Rec.balance = (findNumbers (remainderCleanOf (remainderOf c1Line))).getLastD [] ∧
      c1Rec.amount =
        ((findNumbers (remainderCleanOf (remainderOf c1Line))).dropLast).getLastD [] ∧
      c1Rec.desc =
        stripChars
          (replaceAll (replaceAll (remainderCleanOf (remainderOf c1Line)) c1Rec.amount)
            c1Rec.balance) :=
  (tokens_consumed_from_end c1Line c1Rec (by decide)).1 (by decide)

/-- C5 counterexample: on this line the consumed amount substring 150.00
also occurs earlier in the free text; the code removes both occurrences
(Python str.replace removes every occurrence), while removal of only the
first occurrence, as the claim states, would leave the later one. -/
theorem removal_not_first_occurrence_only :
    (processLine "01/02/2024 PAY 150.00 FEE 150.00 5,000.00".toList).map RawRecord.desc =
        some "PAY  FEE".toList ∧
      stripChars
          (replaceFirst
            (replaceFirst
              (remainderCleanOf
                (remainderOf "01/02/2024 PAY 150.00 FEE 150.00 5,000.00".toList))
              "150.00".toList)
            "5,000.00".toList) =
        "PAY  FEE 150.00".toList ∧
      "PAY  FEE".toList ≠ "PAY  FEE 150.00".toList :=
  ⟨by decide, by decide, by decide⟩

theorem replaceAll_head (y pat : Str) (h : pat ≠ []) :
    replaceAll (pat ++ y) pat = replaceAll y pat := by
  cases pat with
  | nil => exact absurd rfl h
  | cons p ps =>
    have hpre : (p :: ps).isPrefixOf (p :: (ps ++ y)) = true := by
      rw [List.isPrefixOf_iff_prefix]
      exact ⟨y, by simp⟩
    rw [List.cons_append, replaceAll_cons, if_pos ⟨h, hpre⟩]
    have hdrop : (p :: (ps ++ y)).drop (p :: ps).length = y := by
      show ((p :: ps) ++ y).drop (p :: ps).length = y
      exact List.drop_left _ _
    rw [hdrop]

/-- C5 amended: the description of an emitted record is the cleaned
remainder with the matched amount and balance substrings removed (and the
reference code already removed inside remainderCleanOf), where removal is
substring-based and removes every left-to-right non-overlapping occurrence
of the removed substring, not only the first; the last conjunct exhibits
the every-occurrence behavior of the removal operation itself. -/
theorem description_removes_every_occurrence (line : Str) (r : RawRecord)
    (h : processLine line = some r) :
    (2 ≤ (findNumbers (remainderCleanOf (remainderOf line))).length →
      r.desc =
        stripChars
          (replaceAll (replaceAll (remainderCleanOf (remainderOf line)) r.amount)
            r.balance)) ∧
    ((findNumbers (remainderCleanOf (remainderOf line))).length = 1 →
      r.desc = stripChars (replaceAll (remainderCleanOf (remainderOf line)) r.amount)) ∧
    (∀ y pat : Str, pat ≠ [] → replaceAll (pat ++ y) pat = replaceAll y pat) := by
  by_cases hs : isDateShape (line.take 10) = true
  · rw [processLine_eq line hs] at h
    rcases hrev : (findNumbers (remainderCleanOf (remainderOf line))).reverse with _ | ⟨bal, tl⟩
    · rw [hrev] at h
      exact Option.noConfusion h
    · rcases tl with _ | ⟨amt, t⟩
      · rw [hrev] at h
        injection h with h
        subst h
        have h2 := congrArg List.reverse hrev
        rw [List.reverse_reverse] at h2
        have hnums : findNumbers (remainderCleanOf (remainderOf line)) = [bal] := by
          rw [h2]
          rfl
        refine ⟨?_, ?_, fun y pat hp => replaceAll_head y pat hp⟩
        · intro hge
          rw [hnums] at hge
          exact absurd hge (by simp)
        · intro _
          rfl
      · rw [hrev] at h
        injection h with h
        subst h
        have h2 := congrArg List.reverse hrev
        rw [List.reverse_reverse] at h2
        have hnums : findNumbers (remainderCleanOf (remainderOf line)) =
            (t.reverse ++ [amt]) ++ [bal] := by
          rw [h2, List.reverse_cons, List.reverse_cons]
        refine ⟨?_, ?_, fun y pat hp => replaceAll_head y pat hp⟩
        · intro _
          rfl
        · intro h1
          rw [hnums] at h1
          simp at h1
  · unfold processLine dateMatch at h
    rw [if_neg (by simp [hs])] at h
    exact Option.noConfusion h

def c5Line : Str := "01/02/2024 PAY 150.00 FEE 150.00 5,000.00".toList

def c5Rec : RawRecord :=
  ⟨"01/02/2024".toList, [], "PAY  FEE".toList, "150.00".toList, "5,000.00".toList⟩

/-- Witness for the amended C5 at a concrete line where the amount
substring occurs twice. -/
theorem description_removes_every_occurrence_witness :
    c5Rec.desc =
      stripChars
        (replaceAll (replaceAll (remainderCleanOf (remainderOf c5Line)) c5Rec.amount)
          c5Rec.balance) :=
  (description_removes_every_occurrence c5Line c5Rec (by decide)).1 (by decide)

theorem isDigit_not_ws (c : Char) (h : c.isDigit = true) : pyWs c = false := by
  by_contra hw
  rw [Bool.not_eq_false] at hw
  simp only [pyWs, Bool.or_eq_true, decide_eq_true_eq] at hw
  rcases hw with ((((h1 | h1) | h1) | h1) | h1) | h1 <;>
  · subst h1
    exact absurd h (by decide)

theorem isDigit_ne_comma (c : Char) (h : c.isDigit = true) : (c ≠ ',') := by
  intro heq
  subst heq
  exact absurd h (by decide)

theorem dropWhile_false_all {p : Char → Bool} (l : Str) (h : ∀ c ∈ l, p c = false) :
    l.dropWhile p = l := by
  cases l with
  | nil => rfl
  | cons c rest =>
    rw [List.dropWhile_cons, if_neg (by simp [h c (by simp)])]

theorem stripChars_eq_self (l : Str) (h : ∀ c ∈ l, pyWs c = false) : stripChars l = l := by
  unfold stripChars
  rw [dropWhile_false_all l h,
    dropWhile_false_all l.reverse (fun c hc => h c (List.mem_reverse.mp hc)),
    List.reverse_reverse]

theorem takeWhile_all_append {p : Char → Bool} (l f : Str) (h : l.all p = true) :
    (l ++ f).takeWhile p = l ++ f.takeWhile p := by
  induction l with
  | nil => simp
  | cons c rest ih =>
    rw [List.all_cons, Bool.and_eq_true] at h
    rw [List.cons_append, List.takeWhile_cons, if_pos h.1, ih h.2]
    rfl

theorem dropWhile_all_append {p : Char → Bool} (l f : Str) (h : l.all p = true) :
    (l ++ f).dropWhile p = f.dropWhile p := by
  induction l with
  | nil => simp
  | cons c rest ih =>
    rw [List.all_cons, Bool.and_eq_true] at h
    rw [List.cons_append, List.dropWhile_cons, if_pos h.1, ih h.2]

theorem stripCommas_all_digits (l : Str) (h : l.all Char.isDigit = true) :
    stripCommas l = l := by
  unfold stripCommas
  rw [List.filter_eq_self]
  intro c hc
  rw [List.all_eq_true] at h
  simpa using isDigit_ne_comma c (h c hc)

theorem takeDigits_all (n : Nat) (l : Str) : (takeDigits n l).1.all Char.isDigit = true := by
  induction l generalizing n with
  | nil => cases n <;> simp [takeDigits]
  | cons c rest ih =>
    cases n with
    | zero => simp [takeDigits]
    | succ m =>
      by_cases hc : c.isDigit <;> simp [takeDigits, hc, ih]

theorem takeGroups_stripCommas (l : Str) :
    (stripCommas (takeGroups l).1).all Char.isDigit = true := by
  induction l using takeGroups.induct with
  | case1 c1 c2 c3 rest h ih =>
    simp only [takeGroups, h, if_pos]
    simp only [Bool.and_eq_true] at h
    unfold stripCommas at ih ⊢
    rw [List.filter_cons_of_neg (by simp),
      List.filter_cons_of_pos (by simpa using isDigit_ne_comma c1 h.1.1),
      List.filter_cons_of_pos (by simpa using isDigit_ne_comma c2 h.1.2),
      List.filter_cons_of_pos (by simpa using isDigit_ne_comma c3 h.2)]
    simpa [h.1.1, h.1.2, h.2] using ih
  | case2 c1 c2 c3 rest h =>
    simp [takeGroups, h, stripCommas]
  | case3 l h =>
    rw [takeGroups.eq_def]
    split
    · rename_i c1 c2 c3 rest
      exact absurd rfl (fun hh => h c1 c2 c3 rest hh)
    · simp [stripCommas]

theorem takeDec_shape (l : Str) :
    (takeDec l).1 = [] ∨
      ∃ fr : Str, (takeDec l).1 = '.' :: fr ∧ fr ≠ [] ∧ fr.all Char.isDigit = true := by
  rw [takeDec.eq_def]
  split
  · rename_i c rest
    by_cases hc : c.isDigit
    · simp only [hc, if_pos]
      rcases rest with _ | ⟨c2, rest2⟩
      · exact Or.inr ⟨[c], rfl, by simp, by simp [hc]⟩
      · by_cases h2 : c2.isDigit
        · exact Or.inr ⟨[c, c2], by simp [h2], by simp, by simp [hc, h2]⟩
        · exact Or.inr ⟨[c], by simp [h2], by simp, by simp [hc]⟩
    · simp [hc]
  · simp

theorem digit_or_dot_not_ws (c : Char) (h : (c.isDigit || c = '.') = true) :
    pyWs c = false := by
  rw [Bool.or_eq_true] at h
  rcases h with h | h
  · exact isDigit_not_ws c h
  · simp only [decide_eq_true_eq] at h
    subst h
    decide

theorem parseUnsigned_digits_dec (dg f : Str) (h1 : dg ≠ [])
    (h2 : dg.all Char.isDigit = true)
    (h3 : f = [] ∨ ∃ fr : Str, f = '.' :: fr ∧ fr ≠ [] ∧ fr.all Char.isDigit = true) :
    (parseUnsigned (dg ++ f)).isSome = true := by
  unfold parseUnsigned
  rcases h3 with rfl | ⟨fr, rfl, hfr, hfrall⟩
  · rw [takeWhile_all_append dg [] h2, dropWhile_all_append dg [] h2]
    simp [h1]
  · rw [takeWhile_all_append dg _ h2, dropWhile_all_append dg _ h2]
    rw [List.takeWhile_cons, if_neg (by decide), List.dropWhile_cons, if_neg (by decide)]
    simp [hfrall, h1]

theorem parseFloat_of_digits (t : Str)
    (hall : t.all (fun c => c.isDigit || c = '.') = true)
    (hhead : ∃ c r, t = c :: r ∧ c.isDigit = true) :
    parseFloat t = parseUnsigned t := by
  obtain ⟨c, r, rfl, hc⟩ := hhead
  have hnws : ∀ x ∈ c :: r, pyWs x = false := by
    intro x hx
    rw [List.all_eq_true] at hall
    exact digit_or_dot_not_ws x (hall x hx)
  unfold parseFloat
  rw [stripChars_eq_self _ hnws]
  have hcm : c ≠ '-' := by
    intro he
    subst he
    exact absurd hc (by decide)
  have hcp : c ≠ '+' := by
    intro he
    subst he
    exact absurd hc (by decide)
  split
  · rename_i rest heq
    injection heq with he _
    exact absurd he hcm
  · rename_i rest heq
    injection heq with he _
    exact absurd he hcp
  · rfl

theorem stripCommas_append (x y : Str) :
    stripCommas (x ++ y) = stripCommas x ++ stripCommas y :=
  List.filter_append x y

theorem stripCommas_dec (f : Str)
    (h : f = [] ∨ ∃ fr : Str, f = '.' :: fr ∧ fr ≠ [] ∧ fr.all Char.isDigit = true) :
    stripCommas f = f := by
  rcases h with rfl | ⟨fr, rfl, _, hfrall⟩
  · rfl
  · unfold stripCommas
    rw [List.filter_cons_of_pos (by simp)]
    have := stripCommas_all_digits fr hfrall
    unfold stripCommas at this
    rw [this]

theorem matchNumCore_token (l : Str) (p : Str × Str) (h : matchNumCore l = some p) :
    (parseUnsigned (stripCommas p.1)).isSome = true ∧
      (stripCommas p.1).all (fun c => c.isDigit || c = '.') = true ∧
      ∃ c r, stripCommas p.1 = c :: r ∧ c.isDigit = true := by
  rcases l with _ | ⟨c0, rest⟩
  · simp [matchNumCore] at h
  · by_cases hc0 : c0.isDigit
    · simp only [matchNumCore, hc0, if_pos, Option.some.injEq] at h
      subst h
      simp only
      have hd : (takeDigits 3 (c0 :: rest)).1 = c0 :: (takeDigits 2 rest).1 := by
        simp [takeDigits, hc0]
      set d := (takeDigits 3 (c0 :: rest)).1 with hdef
      set g := (takeGroups (takeDigits 3 (c0 :: rest)).2).1 with hgef
      set f := (takeDec (takeGroups (takeDigits 3 (c0 :: rest)).2).2).1 with hfef
      have hdall : d.all Char.isDigit = true := takeDigits_all 3 (c0 :: rest)
      have hgall : (stripCommas g).all Char.isDigit = true := takeGroups_stripCommas _
      have hfshape : f = [] ∨
          ∃ fr : Str, f = '.' :: fr ∧ fr ≠ [] ∧ fr.all Char.isDigit = true :=
        takeDec_shape _
      have hsplit : stripCommas (d ++ g ++ f) = (d ++ stripCommas g) ++ f := by
        rw [stripCommas_append, stripCommas_append, stripCommas_all_digits d hdall,
          stripCommas_dec f hfshape, List.append_assoc]
      have hdgne : d ++ stripCommas g ≠ [] := by
        rw [hd]
        simp
      have hdgall : (d ++ stripCommas g).all Char.isDigit = true := by
        rw [List.all_append]
        simp [hdall, hgall]
      refine ⟨?_, ?_, ?_⟩
      · rw [hsplit]
        exact parseUnsigned_digits_dec _ _ hdgne hdgall hfshape
      · rw [hsplit, List.all_append, List.all_append]
        have h1 : (d.all fun c => c.isDigit || c = '.') = true := by
          rw [List.all_eq_true] at hdall ⊢
          intro x hx
          simp [hdall x hx]
        have h2 : ((stripCommas g).all fun c => c.isDigit || c = '.') = true := by
          rw [List.all_eq_true] at hgall ⊢
          intro x hx
          simp [hgall x hx]
        have h3 : (f.all fun c => c.isDigit || c = '.') = true := by
          rcases hfshape with hfe | ⟨fr, hfe, _, hfrall⟩
          · rw [hfe]
            rfl
          · rw [hfe, List.all_cons]
            rw [List.all_eq_true] at hfrall
            rw [Bool.and_eq_true]
            refine ⟨by decide, ?_⟩
            rw [List.all_eq_true]
            intro x hx
            simp [hfrall x hx]
        simp [h1, h2, h3]
      · refine ⟨c0, (takeDigits 2 rest).1 ++ (stripCommas g ++ f), ?_, hc0⟩
        rw [hsplit, hd, List.append_assoc]
        rfl
    · simp [matchNumCore, hc0] at h

theorem matchNumAt_parses (l : Str) (p : Str × Str) (h : matchNumAt l = some p) :
    (parseFloat (stripCommas p.1)).isSome = true := by
  rw [matchNumAt.eq_def] at h
  split at h
  · rename_i rest
    rcases hc : matchNumCore rest with _ | q
    · rw [hc] at h
      exact Option.noConfusion h
    · rw [hc] at h
      injection h with h
      subst h
      obtain ⟨hsome, hall, c, r, heq, hcdig⟩ := matchNumCore_token rest q hc
      have hstrip : stripCommas ('-' :: q.1) = '-' :: stripCommas q.1 := by
        unfold stripCommas
        rw [List.filter_cons_of_pos (by simp)]
      show (parseFloat (stripCommas ('-' :: q.1))).isSome = true
      rw [hstrip]
      unfold parseFloat
      rw [stripChars_eq_self]
      · show ((parseUnsigned (stripCommas q.1)).map (fun x => -x)).isSome = true
        rcases hu : parseUnsigned (stripCommas q.1) with _ | v
        · rw [hu] at hsome
          simp at hsome
        · rfl
      · intro x hx
        rcases List.mem_cons.mp hx with rfl | hx2
        · decide
        · rw [List.all_eq_true] at hall
          exact digit_or_dot_not_ws x (hall x hx2)
  · obtain ⟨hsome, hall, c, r, heq, hcdig⟩ := matchNumCore_token l p h
    rw [parseFloat_of_digits _ hall ⟨c, r, heq, hcdig⟩]
    exact hsome

theorem findNumbersF_parses (fuel : Nat) : ∀ (l m : Str), m ∈ findNumbersF fuel l →
    (parseFloat (stripCommas m)).isSome = true := by
  induction fuel with
  | zero =>
    intro l m hm
    rcases l with _ | ⟨c, rest⟩ <;> simp [findNumbersF] at hm
  | succ f ih =>
    intro l m hm
    rcases l with _ | ⟨c, rest⟩
    · simp [findNumbersF] at hm
    · rw [findNumbersF] at hm
      rcases hmt : matchNumAt (c :: rest) with _ | p
      · rw [hmt] at hm
        exact ih rest m hm
      · rw [hmt] at hm
        rcases List.mem_cons.mp hm with rfl | hm2
        · exact matchNumAt_parses _ _ hmt
        · exact ih p.2 m hm2

theorem findNumbers_parses (l m : Str) (h : m ∈ findNumbers l) :
    (parseFloat (stripCommas m)).isSome = true :=
  findNumbersF_parses l.length l m h

theorem processLine_amount_mem (line : Str) (r : RawRecord)
    (h : processLine line = some r) :
    r.amount ∈ findNumbers (remainderCleanOf (remainderOf line)) := by
  by_cases hs : isDateShape (line.take 10) = true
  · rw [processLine_eq line hs] at h
    rcases hrev : (findNumbers (remainderCleanOf (remainderOf line))).reverse with _ | ⟨bal, tl⟩
    · rw [hrev] at h
      exact Option.noConfusion h
    · rcases tl with _ | ⟨amt, t⟩
      · rw [hrev] at h
        injection h with h
        subst h
        show bal ∈ findNumbers (remainderCleanOf (remainderOf line))
        rw [← List.mem_reverse, hrev]
        simp
      · rw [hrev] at h
        injection h with h
        subst h
        show amt ∈ findNumbers (remainderCleanOf (remainderOf line))
        rw [← List.mem_reverse, hrev]
        simp
  · unfold processLine dateMatch at h
    rw [if_neg (by simp [hs])] at h
    exact Option.noConfusion h

theorem astype_amounts_ok (lines : List Str) :
    (astypeFloatCol ((extract_wio_transactions lines).map RawRecord.amount)).isSome = true := by
  induction lines with
  | nil => rfl
  | cons line rest ih =>
    rw [extract_wio_transactions]
    rcases hp : processLine line with _ | r
    · exact ih
    · rw [List.map_cons, astypeFloatCol]
      have ham := findNumbers_parses _ _ (processLine_amount_mem line r hp)
      rcases hq : parseFloat (stripCommas r.amount) with _ | q
      · rw [hq] at ham
        simp at ham
      · rcases hcol : astypeFloatCol ((extract_wio_transactions rest).map RawRecord.amount)
          with _ | qs
        · rw [hcol] at ih
          simp at ih
        · rfl

theorem toNumericCoerce_example :
    toNumericCoerce "1,234.56".toList = some (123456 / 100 : ℚ) := by
  have h1 : toNumericCoerce "1,234.56".toList =
      some ((digitsVal "1234".toList : ℚ) + (digitsVal "56".toList : ℚ) / 10 ^ 2) := rfl
  have h2 : digitsVal "1234".toList = 1234 := by decide
  have h3 : digitsVal "56".toList = 56 := by decide
  rw [h1, h2, h3]
  simp only [Option.some.injEq]
  norm_num

/-- C6 counterexample: an empty running-balance field (which the extractor
produces whenever a line has exactly one numeric token) is coerced by
pd.to_numeric(errors=coerce) to a missing value, not to 0.00. -/
theorem empty_field_missing_not_zero :
    toNumericCoerce [] = none ∧
      (processLine "01/02/2024 Taxi 75.50".toList).map RawRecord.balance = some ([] : Str) ∧
      toNumericCoerce "1,234.56".toList = some (123456 / 100 : ℚ) :=
  ⟨rfl, by decide, toNumericCoerce_example⟩

/-- C6 amended: numeric parsing strips all commas then converts, and
"1,234.56" parses to 1234.56; every numeric token the extractor produces
parses, so astype(float) on the Amount column never raises on extracted
rows; but an empty running-balance field under pd.to_numeric with coerced
errors becomes a missing value, not 0.00. -/
theorem numeric_parsing_behavior :
    toNumericCoerce "1,234.56".toList = some (123456 / 100 : ℚ) ∧
      toNumericCoerce [] = none ∧
      (∀ l m : Str, m ∈ findNumbers l → (parseFloat (stripCommas m)).isSome = true) ∧
      (∀ lines : List Str,
        (astypeFloatCol ((extract_wio_transactions lines).map RawRecord.amount)).isSome =
          true) :=
  ⟨toNumericCoerce_example, rfl, findNumbers_parses, astype_amounts_ok⟩

theorem mem_finalRecords_iff (lines : List Str) (r : RawRecord) :
    r ∈ finalRecords lines ↔
      r ∈ extract_wio_transactions lines ∧ (parseDate r.date).isSome = true := by
  unfold finalRecords sortByDate dropnaByDate
  constructor
  · intro h
    have hperm := List.perm_insertionSort (fun a b => dateKey a ≤ dateKey b)
      ((extract_wio_transactions lines).filter (fun r => (parseDate r.date).isSome))
    have hmem := hperm.mem_iff.mp h
    have h2 := List.mem_filter.mp hmem
    exact ⟨h2.1, h2.2⟩
  · intro h
    apply (List.perm_insertionSort (fun a b => dateKey a ≤ dateKey b) _).mem_iff.mpr
    exact List.mem_filter.mpr ⟨h.1, h.2⟩

/-- C10 counterexample: a line whose first ten characters match the digit
pattern but form no valid calendar date, and whose remainder has no
numeric token: no raw record is extracted at all for it, against the
claim that every such line yields a raw record. -/
theorem invalid_date_line_no_record :
    isDateShape ("45/13/2024 hello world".toList.take 10) = true ∧
      parseDate ("45/13/2024 hello world".toList.take 10) = none ∧
      processLine "45/13/2024 hello world".toList = none :=
  ⟨by decide, by decide, by decide⟩

/-- C10 amended: a line whose first ten characters match the digit pattern
yields a raw record exactly when its cleaned remainder has numeric tokens;
every extracted raw record whose date is not a valid calendar date is
dropped by the date coercion and dropna step; and the final table contains
only records with valid calendar dates. -/
theorem invalid_dates_dropped :
    (∀ line : Str, isDateShape (line.take 10) = true →
      findNumbers (remainderCleanOf (remainderOf line)) ≠ [] →
      (processLine line).isSome = true) ∧
      (∀ (lines : List Str) (r : RawRecord), r ∈ extract_wio_transactions lines →
        parseDate r.date = none → r ∉ finalRecords lines) ∧
      (∀ (lines : List Str) (r : RawRecord), r ∈ finalRecords lines →
        (parseDate r.date).isSome = true) := by
  refine ⟨?_, ?_, ?_⟩
  · intro line h1 h2
    rw [processLine_eq line h1]
    rcases hrev : (findNumbers (remainderCleanOf (remainderOf line))).reverse
      with _ | ⟨bal, tl⟩
    · exact absurd (List.reverse_eq_nil_iff.mp hrev) h2
    · rcases tl with _ | ⟨amt, t⟩ <;> rfl
  · intro lines r hmem hnone hfin
    have h2 := (mem_finalRecords_iff lines r).mp hfin
    rw [hnone] at h2
    exact absurd h2.2 (by simp)
  · intro lines r hfin
    exact ((mem_finalRecords_iff lines r).mp hfin).2

def c10Lines : List Str :=
  ["45/13/2024 bad 5.00 6.00".toList, "01/02/2024 good 5.00 6.00".toList]

def c10Rec : RawRecord :=
  ⟨"45/13/2024".toList, [], "bad".toList, "5.00".toList, "6.00".toList⟩

/-- Witness for the amended C10: the raw record extracted from the
invalid-date line is not in the final table. -/
theorem invalid_dates_dropped_witness : c10Rec ∉ finalRecords c10Lines :=
  invalid_dates_dropped.2.1 c10Lines c10Rec (by decide) (by decide)
